import Mathlib

/-!
Shallow embedding of the BRC-20 indexer core (src/brc20_index/mint.rs and
src/brc20_index/mongo.rs).  All `f64` amounts of the source are embedded as
exact rationals (`ℚ`); the source performs only additions, subtractions and
comparisons on them.  Types and functions of the repository that are not under
src/ (only used there) are modelled from the specification and carry a doc
comment starting with `Modelled from the spec:`.
-/

namespace Brc20

/-- Modelled from the spec: the decoded inscription payload (`Brc20Inscription`
is declared outside src/).  The mint validator reads the ticker symbol `tick`
and the optional amount string `amt`. -/
structure Brc20Inscription where
  tick : String
  amt : Option String
deriving DecidableEq

/-- Modelled from the spec: the base-ledger transaction carrying an inscription
(`Brc20Tx` is declared outside src/): transaction id and owning address. -/
structure Brc20Tx where
  txid : String
  owner : String
deriving DecidableEq

/-- Embedding of `struct Brc20MintTx` (mint.rs): the carried transaction, the
mint inscription, the resolved (credited) amount and the validity flag. -/
structure Brc20MintTx where
  brc20_tx : Brc20Tx
  mint : Brc20Inscription
  amount : ℚ
  is_valid : Bool
deriving DecidableEq

/-- Embedding of `Brc20MintTx::new` (mint.rs): amount `0.0`, `is_valid` false. -/
def Brc20MintTx.new (brc20_tx : Brc20Tx) (mint : Brc20Inscription) : Brc20MintTx :=
  { brc20_tx := brc20_tx, mint := mint, amount := 0, is_valid := false }

/-- Modelled from the spec: a deployed ticker's state (`Brc20Ticker` is
declared outside src/): max supply, per-mint limit, decimals, running total
minted, and the ordered list of accepted mint records. -/
structure Brc20Ticker where
  tick : String
  max_supply : ℚ
  limit : ℚ
  decimals : Nat
  total_minted : ℚ
  mints : List Brc20MintTx
deriving DecidableEq

def Brc20Ticker.get_limit (t : Brc20Ticker) : ℚ := t.limit

def Brc20Ticker.get_max_supply (t : Brc20Ticker) : ℚ := t.max_supply

/-- The source's accessor for the running total minted is named
`get_total_supply`. -/
def Brc20Ticker.get_total_supply (t : Brc20Ticker) : ℚ := t.total_minted

def Brc20Ticker.get_decimals (t : Brc20Ticker) : Nat := t.decimals

/-- Modelled from the spec: `Brc20Ticker::add_mint` (declared outside src/)
appends the accepted mint record and increments `total_minted` by the credited
amount carried by the record. -/
def Brc20Ticker.add_mint (t : Brc20Ticker) (m : Brc20MintTx) : Brc20Ticker :=
  { t with mints := t.mints ++ [m], total_minted := t.total_minted + m.amount }

/-- Embedding of `InvalidBrc20Tx` (declared outside src/; its constructor is
called in mint.rs with the transaction id, the original inscription and the
rejection reason). -/
structure InvalidBrc20Tx where
  txid : String
  mint : Brc20Inscription
  reason : String
deriving DecidableEq

/-- Modelled from the spec: the Invalid-Operation Ledger (`InvalidBrc20TxMap`
is declared outside src/) is an append-only collection of rejected
inscriptions keyed by transaction id. -/
abbrev InvalidBrc20TxMap := List InvalidBrc20Tx

/-- Modelled from the spec: `add_invalid_tx` never fails; it is a pure
recording operation appending the entry to the ledger. -/
def InvalidBrc20TxMap.add_invalid_tx (m : InvalidBrc20TxMap) (e : InvalidBrc20Tx) :
    InvalidBrc20TxMap :=
  m ++ [e]

/-- The Ticker Registry: the source's `HashMap<String, Brc20Ticker>` is
embedded as an association list keyed by ticker symbol. -/
abbrev TickerMap := List (String × Brc20Ticker)

/-- Lookup of the first entry with the given ticker symbol (`HashMap::get`). -/
def TickerMap.get? : TickerMap → String → Option Brc20Ticker
  | [], _ => none
  | p :: rest, k => if p.1 = k then some p.2 else TickerMap.get? rest k

/-- In-place replacement of the value stored under a key
(`HashMap::get_mut` followed by a mutation). -/
def TickerMap.set : TickerMap → String → Brc20Ticker → TickerMap
  | [], _, _ => []
  | p :: rest, k, v => if p.1 = k then (k, v) :: TickerMap.set rest k v
      else p :: TickerMap.set rest k v

/-- Embedding of the amount-resolution match of `validate_mint` (mint.rs):
a present amount string is parsed by `convert_to_float` (declared outside
src/, hence passed as a parameter) at the ticker's declared decimal count; an
absent amount string resolves to `0.0`. -/
def convert_amount (convert_to_float : String → Nat → Except String ℚ)
    (amt : Option String) (decimals : Nat) : Except String ℚ :=
  match amt with
  | some s => convert_to_float s decimals
  | none => Except.ok 0

/-- Embedding of `Brc20MintTx::validate_mint` (mint.rs).  The source computes
an `(is_valid, reason, patched mint tx)` triple through the branches and then
merges into a common tail that either records an `InvalidBrc20Tx` (leaving the
registry untouched) or marks the mint valid and calls `add_mint` on the ticker
fetched again with `get_mut().unwrap()`; here every branch returns the merged
final `(result, ticker registry, invalid ledger)` triple directly, reusing the
first lookup's ticker, which the unchanged registry makes equivalent. -/
def Brc20MintTx.validate_mint (self : Brc20MintTx)
    (convert_to_float : String → Nat → Except String ℚ) (brc20_tx : Brc20Tx)
    (ticker_map : TickerMap) (invalid_tx_map : InvalidBrc20TxMap) :
    Brc20MintTx × TickerMap × InvalidBrc20TxMap :=
  let brc20_mint_tx := Brc20MintTx.new brc20_tx self.mint
  match TickerMap.get? ticker_map brc20_mint_tx.mint.tick with
  | some ticker =>
    match convert_amount convert_to_float brc20_mint_tx.mint.amt ticker.get_decimals with
    | Except.ok amount =>
      if amount > ticker.get_limit then
        (brc20_mint_tx, ticker_map, invalid_tx_map.add_invalid_tx
          { txid := brc20_tx.txid, mint := brc20_mint_tx.mint,
            reason := "Mint amount exceeds limit" })
      else if ticker.get_total_supply + amount > ticker.get_max_supply then
        let accepted := { brc20_mint_tx with
          amount := ticker.get_max_supply - ticker.get_total_supply, is_valid := true }
        (accepted, TickerMap.set ticker_map brc20_mint_tx.mint.tick
          (ticker.add_mint accepted), invalid_tx_map)
      else
        let accepted := { brc20_mint_tx with amount := amount, is_valid := true }
        (accepted, TickerMap.set ticker_map brc20_mint_tx.mint.tick
          (ticker.add_mint accepted), invalid_tx_map)
    | Except.error e =>
      (brc20_mint_tx, ticker_map, invalid_tx_map.add_invalid_tx
        { txid := brc20_tx.txid, mint := brc20_mint_tx.mint, reason := e })
  | none =>
    (brc20_mint_tx, ticker_map, invalid_tx_map.add_invalid_tx
      { txid := brc20_tx.txid, mint := brc20_mint_tx.mint,
        reason := "Ticker symbol does not exist" })

/-! ## Balance ledger (mongo.rs) -/

/-- Embedding of `UserBalanceEntryType` (declared outside src/; its three
variants `Receive`, `Send` and `Inscription` are matched on in
`rebuild_user_balances` in mongo.rs). -/
inductive UserBalanceEntryType where
  | Receive
  | Send
  | Inscription
deriving DecidableEq

/-- Embedding of `UserBalanceEntry` (declared outside src/; constructed in
mongo.rs as `UserBalanceEntry::new(address, tick, block_height, amount,
entry_type)` and read back by `rebuild_user_balances` through the persisted
fields `address`, `tick`, `amt` and `entry_type`). -/
structure UserBalanceEntry where
  address : String
  tick : String
  block_height : Nat
  amt : ℚ
  entry_type : UserBalanceEntryType
deriving DecidableEq

/-- Embedding of the materialized per-(address, ticker) balance document
(`UserBalance`, declared outside src/; mongo.rs reads and writes its fields
`available_balance`, `transferable_balance` and `overall_balance`). -/
structure UserBalance where
  address : String
  tick : String
  available_balance : ℚ
  transferable_balance : ℚ
  overall_balance : ℚ
deriving DecidableEq

/-- Modelled from the spec: `UserBalance::new` (declared outside src/) creates
a balance with all numeric fields zero. -/
def UserBalance.new (address : String) (tick : String) : UserBalance :=
  { address := address, tick := tick, available_balance := 0,
    transferable_balance := 0, overall_balance := 0 }

/-- The materialized-balance collection, embedded as the list of its
documents in insertion order. -/
abbrev BalStore := List UserBalance

/-- Embedding of `find_one` on the user-balance collection with the filter
`{address, tick}`: the first document matching the pair. -/
def findBalance : BalStore → String → String → Option UserBalance
  | [], _, _ => none
  | r :: rest, a, t => if r.address = a ∧ r.tick = t then some r
      else findBalance rest a t

/-- Embedding of `update_one` with filter `{address, tick}` and upsert set to
false: patch the first matching document, leave everything else unchanged, and
do nothing when no document matches. -/
def updateFirstBalance (f : UserBalance → UserBalance) :
    BalStore → String → String → BalStore
  | [], _, _ => []
  | r :: rest, a, t => if r.address = a ∧ r.tick = t then f r :: rest
      else r :: updateFirstBalance f rest a t

/-- Embedding of `update_sender_user_balance_document` (mongo.rs): fetch the
(sender, tick) balance; when present, write back its overall and transferable
balances decreased by the amount; when absent, do nothing. -/
def update_sender_user_balance_document (s : BalStore) (sender : String)
    (amount : ℚ) (tick : String) : BalStore :=
  match findBalance s sender tick with
  | some d => updateFirstBalance (fun r =>
      { r with transferable_balance := d.transferable_balance - amount,
               overall_balance := d.overall_balance - amount }) s sender tick
  | none => s

/-- Embedding of `update_receiver_balance_document` (mongo.rs): fetch the
(receiver, tick) balance; when present, write back its overall and available
balances increased by the amount; when absent, insert a new `UserBalance` with
its overall and available balances set to the amount. -/
def update_receiver_balance_document (s : BalStore) (receiver_address : String)
    (amount : ℚ) (tick : String) : BalStore :=
  match findBalance s receiver_address tick with
  | some d => updateFirstBalance (fun r =>
      { r with overall_balance := d.overall_balance + amount,
               available_balance := d.available_balance + amount }) s receiver_address tick
  | none => s ++ [{ UserBalance.new receiver_address tick with
      overall_balance := amount, available_balance := amount }]

/-- Embedding of `update_transfer_inscriber_user_balance_document` (mongo.rs):
given the fetched balance document `user_balance_from`, write back (with
upsert false) its available balance decreased and its transferable balance
increased by the amount. -/
def update_transfer_inscriber_user_balance_document (s : BalStore)
    (sender : String) (amount : ℚ) (tick : String)
    (user_balance_from : UserBalance) : BalStore :=
  updateFirstBalance (fun r =>
    { r with available_balance := user_balance_from.available_balance - amount,
             transferable_balance := user_balance_from.transferable_balance + amount })
    s sender tick

/-- Modelled from the spec: the incremental-apply dispatch of the block
processing pipeline (the caller is not under src/).  Receive and Send call the
corresponding mongo.rs update functions directly; Inscribe-for-transfer first
fetches the stored balance document, creating one with all fields zero when
absent (spec, Balance Ledger incremental apply), and passes it to the mongo.rs
update function. -/
def applyEvent (s : BalStore) (e : UserBalanceEntry) : BalStore :=
  match e.entry_type with
  | UserBalanceEntryType.Receive =>
      update_receiver_balance_document s e.address e.amt e.tick
  | UserBalanceEntryType.Send =>
      update_sender_user_balance_document s e.address e.amt e.tick
  | UserBalanceEntryType.Inscription =>
      match findBalance s e.address e.tick with
      | some d =>
          update_transfer_inscriber_user_balance_document s e.address e.amt e.tick d
      | none =>
          update_transfer_inscriber_user_balance_document
            (s ++ [UserBalance.new e.address e.tick]) e.address e.amt e.tick
            (UserBalance.new e.address e.tick)

/-- Incremental application of a list of balance events in order. -/
def applyEvents (s : BalStore) (l : List UserBalanceEntry) : BalStore :=
  l.foldl applyEvent s

/-- The `(available_balance, transferable_balance, overall_balance)` triple of
a materialized balance document, in the tuple order used by
`rebuild_user_balances`. -/
def balTriple (r : UserBalance) : ℚ × ℚ × ℚ :=
  (r.available_balance, r.transferable_balance, r.overall_balance)

/-- Embedding of the per-entry balance adjustment of `rebuild_user_balances`
(mongo.rs) on an `(available, transferable, overall)` triple. -/
def rbStep (b : ℚ × ℚ × ℚ) (e : UserBalanceEntry) : ℚ × ℚ × ℚ :=
  match e.entry_type with
  | UserBalanceEntryType.Receive => (b.1 + e.amt, b.2.1, b.2.2 + e.amt)
  | UserBalanceEntryType.Send => (b.1, b.2.1 - e.amt, b.2.2 - e.amt)
  | UserBalanceEntryType.Inscription => (b.1 - e.amt, b.2.1 + e.amt, b.2.2)

/-- The in-memory balance map built by `rebuild_user_balances`: the source's
nested `HashMap<String, HashMap<String, (f64, f64, f64)>>` is embedded as an
association list keyed by the (address, ticker) pair, in first-touch order. -/
abbrev RebuildMap := List ((String × String) × (ℚ × ℚ × ℚ))

/-- Lookup of the triple stored under an (address, ticker) key. -/
def rbFind : RebuildMap → String × String → Option (ℚ × ℚ × ℚ)
  | [], _ => none
  | p :: rest, k => if p.1 = k then some p.2 else rbFind rest k

/-- Replacement of the triple stored under a key (the mutation performed on
the `entry(..).or_insert(..)` reference when the key is already present). -/
def rbPatch : RebuildMap → String × String → (ℚ × ℚ × ℚ → ℚ × ℚ × ℚ) → RebuildMap
  | [], _, _ => []
  | p :: rest, k, f => if p.1 = k then (p.1, f p.2) :: rest
      else rbPatch rest k f |> (p :: ·)

/-- Embedding of one iteration of the entry loop of `rebuild_user_balances`:
`entry(address).or_insert(..).entry(ticker).or_insert((0.0, 0.0, 0.0))`
followed by the per-kind adjustment. -/
def rbUpdate (m : RebuildMap) (e : UserBalanceEntry) : RebuildMap :=
  match rbFind m (e.address, e.tick) with
  | some _ => rbPatch m (e.address, e.tick) (fun b => rbStep b e)
  | none => m ++ [((e.address, e.tick), rbStep (0, 0, 0) e)]

/-- Embedding of the balance-map construction of `rebuild_user_balances`
(mongo.rs): fold the per-kind adjustments over all user balance entries,
starting from an empty map. -/
def computeUserBalances (entries : List UserBalanceEntry) : RebuildMap :=
  entries.foldl rbUpdate []

/-- The user-balance document written for one computed map entry. -/
def toUserBalanceDoc (p : (String × String) × (ℚ × ℚ × ℚ)) : UserBalance :=
  { address := p.1.1, tick := p.1.2, available_balance := p.2.1,
    transferable_balance := p.2.2.1, overall_balance := p.2.2.2 }

/-- Embedding of `rebuild_user_balances` (mongo.rs) at the collection level:
the computed balance documents are inserted one by one into the
`brc20_user_balances` collection; the source never clears the collection
first, so the new documents are appended to whatever it already holds. -/
def rebuild_user_balances (coll : BalStore) (entries : List UserBalanceEntry) :
    BalStore :=
  coll ++ (computeUserBalances entries).map toUserBalanceDoc

/-! ## Reconciliation (mongo.rs) and the mint pipeline -/

/-- The persisted accepted-mint record as read by
`calculate_and_update_total_minted` (mongo.rs): the ticker symbol filtered on
(`inscription.tick`) and the stored amount field `amt`. -/
structure MintDoc where
  tick : String
  amt : ℚ
deriving DecidableEq

/-- Embedding of the per-ticker sum of `calculate_and_update_total_minted`
(mongo.rs): the sum of the stored `amt` of every mint record whose
inscription carries this ticker. -/
def sumMintAmounts (mints : List MintDoc) (tick : String) : ℚ :=
  ((mints.filter (fun m => m.tick = tick)).map MintDoc.amt).sum

/-- Embedding of `calculate_and_update_total_minted` (mongo.rs): every ticker
document's `total_minted` is overwritten with the recomputed per-ticker sum. -/
def calculate_and_update_total_minted (tickers : TickerMap)
    (mints : List MintDoc) : TickerMap :=
  tickers.map (fun p => (p.1, { p.2 with total_minted := sumMintAmounts mints p.1 }))

/-- Modelled from the spec: on acceptance the pipeline persists an
accepted-mint record carrying the ticker symbol and the credited amount (the
inserting caller is not under src/); a rejected mint persists nothing. -/
def mintDocsOf (r : Brc20MintTx) : List MintDoc :=
  if r.is_valid then [{ tick := r.mint.tick, amt := r.amount }] else []

/-- Modelled from the spec: on acceptance the pipeline emits a Receive balance
event for the owning address for the credited amount (the emitting caller is
not under src/); a rejected mint emits no balance event. -/
def mintBalanceEvents (r : Brc20MintTx) (block_height : Nat) :
    List UserBalanceEntry :=
  if r.is_valid then
    [{ address := r.brc20_tx.owner, tick := r.mint.tick,
       block_height := block_height, amt := r.amount,
       entry_type := UserBalanceEntryType.Receive }]
  else []

/-- One mint-processing step of the pipeline (`handle_mint_operation` in
mint.rs builds the `Brc20MintTx` from the inscription and transaction and runs
`validate_mint`); the accepted-mint record persistence is modelled from the
spec through `mintDocsOf`. -/
def applyMintOp (convert_to_float : String → Nat → Except String ℚ)
    (st : TickerMap × InvalidBrc20TxMap × List MintDoc)
    (op : Brc20Inscription × Brc20Tx) :
    TickerMap × InvalidBrc20TxMap × List MintDoc :=
  let r := (Brc20MintTx.new op.2 op.1).validate_mint convert_to_float op.2 st.1 st.2.1
  (r.2.1, r.2.2, st.2.2 ++ mintDocsOf r.1)

/-- Sequential processing of a list of mint operations in order. -/
def applyMintOps (convert_to_float : String → Nat → Except String ℚ)
    (ops : List (Brc20Inscription × Brc20Tx))
    (st : TickerMap × InvalidBrc20TxMap × List MintDoc) :
    TickerMap × InvalidBrc20TxMap × List MintDoc :=
  ops.foldl (applyMintOp convert_to_float) st

/-! ## Registry lemmas and the supply-cap invariant -/

/-- The supply-cap invariant of the Ticker Registry: every registered ticker's
running total minted is at most its declared max supply. -/
def CapInv (m : TickerMap) : Prop :=
  ∀ p ∈ m, p.2.total_minted ≤ p.2.max_supply

theorem TickerMap.mem_set {m : TickerMap} {k : String} {v : Brc20Ticker}
    {q : String × Brc20Ticker} (hq : q ∈ TickerMap.set m k v) :
    q = (k, v) ∨ (q ∈ m ∧ q.1 ≠ k) := by
  induction m with
  | nil => simp [TickerMap.set] at hq
  | cons p rest ih =>
    by_cases hp : p.1 = k
    · rw [TickerMap.set, if_pos hp] at hq
      rcases List.mem_cons.mp hq with h | h
      · exact Or.inl h
      · rcases ih h with h' | h'
        · exact Or.inl h'
        · exact Or.inr ⟨List.mem_cons_of_mem _ h'.1, h'.2⟩
    · rw [TickerMap.set, if_neg hp] at hq
      rcases List.mem_cons.mp hq with h | h
      · exact Or.inr ⟨h ▸ List.mem_cons_self _ _, h ▸ hp⟩
      · rcases ih h with h' | h'
        · exact Or.inl h'
        · exact Or.inr ⟨List.mem_cons_of_mem _ h'.1, h'.2⟩

theorem TickerMap.get?_mem {m : TickerMap} {k : String} {tk : Brc20Ticker}
    (h : TickerMap.get? m k = some tk) : (k, tk) ∈ m := by
  induction m with
  | nil => simp [TickerMap.get?] at h
  | cons p rest ih =>
    by_cases hp : p.1 = k
    · rw [TickerMap.get?, if_pos hp, Option.some_inj] at h
      have hpk : p = (k, tk) := by
        obtain ⟨a, b⟩ := p
        simp only [Prod.mk.injEq]
        exact ⟨hp, h⟩
      rw [← hpk]
      exact List.mem_cons_self _ _
    · rw [TickerMap.get?, if_neg hp] at h
      exact List.mem_cons_of_mem _ (ih h)

/-! Branch characterizations of `validate_mint`, one per control path of the
source function. -/

theorem validate_mint_none (self : Brc20MintTx)
    (ctf : String → Nat → Except String ℚ) (tx : Brc20Tx) (tm : TickerMap)
    (itm : InvalidBrc20TxMap)
    (hget : TickerMap.get? tm self.mint.tick = none) :
    self.validate_mint ctf tx tm itm =
      (Brc20MintTx.new tx self.mint, tm, itm.add_invalid_tx
        { txid := tx.txid, mint := self.mint,
          reason := "Ticker symbol does not exist" }) := by
  simp only [Brc20MintTx.validate_mint, Brc20MintTx.new, hget]

theorem validate_mint_err (self : Brc20MintTx)
    (ctf : String → Nat → Except String ℚ) (tx : Brc20Tx) (tm : TickerMap)
    (itm : InvalidBrc20TxMap) (tk : Brc20Ticker) (e : String)
    (hget : TickerMap.get? tm self.mint.tick = some tk)
    (hconv : convert_amount ctf self.mint.amt tk.get_decimals = Except.error e) :
    self.validate_mint ctf tx tm itm =
      (Brc20MintTx.new tx self.mint, tm, itm.add_invalid_tx
        { txid := tx.txid, mint := self.mint, reason := e }) := by
  simp only [Brc20MintTx.validate_mint, Brc20MintTx.new, hget, hconv]

theorem validate_mint_limit (self : Brc20MintTx)
    (ctf : String → Nat → Except String ℚ) (tx : Brc20Tx) (tm : TickerMap)
    (itm : InvalidBrc20TxMap) (tk : Brc20Ticker) (a : ℚ)
    (hget : TickerMap.get? tm self.mint.tick = some tk)
    (hconv : convert_amount ctf self.mint.amt tk.get_decimals = Except.ok a)
    (hlim : tk.get_limit < a) :
    self.validate_mint ctf tx tm itm =
      (Brc20MintTx.new tx self.mint, tm, itm.add_invalid_tx
        { txid := tx.txid, mint := self.mint,
          reason := "Mint amount exceeds limit" }) := by
  simp only [Brc20MintTx.validate_mint, Brc20MintTx.new, hget, hconv]
  rw [if_pos hlim]

theorem validate_mint_clamp (self : Brc20MintTx)
    (ctf : String → Nat → Except String ℚ) (tx : Brc20Tx) (tm : TickerMap)
    (itm : InvalidBrc20TxMap) (tk : Brc20Ticker) (a : ℚ)
    (hget : TickerMap.get? tm self.mint.tick = some tk)
    (hconv : convert_amount ctf self.mint.amt tk.get_decimals = Except.ok a)
    (hlim : a ≤ tk.get_limit)
    (hover : tk.get_max_supply < tk.get_total_supply + a) :
    self.validate_mint ctf tx tm itm =
      ({ Brc20MintTx.new tx self.mint with
          amount := tk.get_max_supply - tk.get_total_supply, is_valid := true },
        TickerMap.set tm self.mint.tick (tk.add_mint
          { Brc20MintTx.new tx self.mint with
            amount := tk.get_max_supply - tk.get_total_supply, is_valid := true }),
        itm) := by
  simp only [Brc20MintTx.validate_mint, Brc20MintTx.new, hget, hconv]
  rw [if_neg (not_lt.mpr hlim), if_pos hover]

theorem validate_mint_ok (self : Brc20MintTx)
    (ctf : String → Nat → Except String ℚ) (tx : Brc20Tx) (tm : TickerMap)
    (itm : InvalidBrc20TxMap) (tk : Brc20Ticker) (a : ℚ)
    (hget : TickerMap.get? tm self.mint.tick = some tk)
    (hconv : convert_amount ctf self.mint.amt tk.get_decimals = Except.ok a)
    (hlim : a ≤ tk.get_limit)
    (hover : tk.get_total_supply + a ≤ tk.get_max_supply) :
    self.validate_mint ctf tx tm itm =
      ({ Brc20MintTx.new tx self.mint with amount := a, is_valid := true },
        TickerMap.set tm self.mint.tick (tk.add_mint
          { Brc20MintTx.new tx self.mint with amount := a, is_valid := true }),
        itm) := by
  simp only [Brc20MintTx.validate_mint, Brc20MintTx.new, hget, hconv]
  rw [if_neg (not_lt.mpr hlim), if_neg (not_lt.mpr hover)]

theorem CapInv.set {m : TickerMap} {k : String} {v : Brc20Ticker}
    (h : CapInv m) (hv : v.total_minted ≤ v.max_supply) :
    CapInv (TickerMap.set m k v) := by
  intro q hq
  rcases TickerMap.mem_set hq with rfl | hq'
  · exact hv
  · exact h q hq'.1

/-- One `validate_mint` call preserves the supply-cap invariant: a clamped
mint brings the ticker exactly to its max supply, and an unclamped one stays
within it. -/
theorem validate_mint_cap (self : Brc20MintTx)
    (ctf : String → Nat → Except String ℚ) (tx : Brc20Tx) (tm : TickerMap)
    (itm : InvalidBrc20TxMap) (h : CapInv tm) :
    CapInv (self.validate_mint ctf tx tm itm).2.1 := by
  cases hget : TickerMap.get? tm self.mint.tick with
  | none => rw [validate_mint_none self ctf tx tm itm hget]; exact h
  | some ticker =>
    cases hconv : convert_amount ctf self.mint.amt ticker.get_decimals with
    | error e => rw [validate_mint_err self ctf tx tm itm ticker e hget hconv]; exact h
    | ok amount =>
      by_cases hlim : amount ≤ ticker.get_limit
      · by_cases hover : ticker.get_total_supply + amount ≤ ticker.get_max_supply
        · rw [validate_mint_ok self ctf tx tm itm ticker amount hget hconv hlim hover]
          refine CapInv.set h ?_
          simp only [Brc20Ticker.add_mint, Brc20Ticker.get_max_supply,
            Brc20Ticker.get_total_supply] at hover ⊢
          linarith
        · rw [validate_mint_clamp self ctf tx tm itm ticker amount hget hconv hlim
            (not_le.mp hover)]
          refine CapInv.set h ?_
          simp only [Brc20Ticker.add_mint, Brc20Ticker.get_max_supply,
            Brc20Ticker.get_total_supply]
          linarith
      · rw [validate_mint_limit self ctf tx tm itm ticker amount hget hconv
          (not_le.mp hlim)]
        exact h

theorem applyMintOps_cap (ctf : String → Nat → Except String ℚ)
    (ops : List (Brc20Inscription × Brc20Tx))
    (st : TickerMap × InvalidBrc20TxMap × List MintDoc) (h : CapInv st.1) :
    CapInv (applyMintOps ctf ops st).1 := by
  induction ops generalizing st with
  | nil => exact h
  | cons op rest ih =>
    exact ih _ (validate_mint_cap _ ctf op.2 st.1 st.2.1 h)

/-- C1: over any sequence of mint validations the running `total_minted` of
every registered ticker never exceeds its max supply, and a mint whose
resolved amount is within the per-mint limit but would push `total_minted`
past the max supply is accepted and credited exactly the remaining headroom
`max_supply - total_minted` (possibly zero), not rejected. -/
theorem mint_cap_supply (ctf : String → Nat → Except String ℚ)
    (ops : List (Brc20Inscription × Brc20Tx))
    (st : TickerMap × InvalidBrc20TxMap × List MintDoc) (hcap : CapInv st.1) :
    CapInv (applyMintOps ctf ops st).1 ∧
    ∀ (self : Brc20MintTx) (tx : Brc20Tx) (tm : TickerMap)
      (itm : InvalidBrc20TxMap) (tk : Brc20Ticker) (a : ℚ),
      TickerMap.get? tm self.mint.tick = some tk →
      convert_amount ctf self.mint.amt tk.get_decimals = Except.ok a →
      a ≤ tk.get_limit →
      tk.get_max_supply < tk.get_total_supply + a →
      (self.validate_mint ctf tx tm itm).1.is_valid = true ∧
      (self.validate_mint ctf tx tm itm).1.amount =
        tk.get_max_supply - tk.get_total_supply := by
  refine ⟨applyMintOps_cap ctf ops st hcap, ?_⟩
  intro self tx tm itm tk a hget hconv hlim hover
  rw [validate_mint_clamp self ctf tx tm itm tk a hget hconv hlim hover]
  exact ⟨rfl, rfl⟩

instance (m : TickerMap) : Decidable (CapInv m) :=
  inferInstanceAs (Decidable (∀ p ∈ m, p.2.total_minted ≤ p.2.max_supply))

/-! ## Concrete inputs used by witnesses and counterexamples -/

/-- A concrete parser for witnesses: decimal strings used in the spec's
concrete scenario. -/
def sampleCtf : String → Nat → Except String ℚ := fun s _ =>
  if s = "100" then Except.ok 100
  else if s = "950" then Except.ok 950
  else if s = "1" then Except.ok 1
  else Except.error "invalid number"

def sampleTicker : Brc20Ticker :=
  { tick := "ordi", max_supply := 1000, limit := 100, decimals := 0,
    total_minted := 900, mints := [] }

def sampleMap : TickerMap := [("ordi", sampleTicker)]

def sampleTx : Brc20Tx := { txid := "txA", owner := "addrA" }

def sampleMint (a : String) : Brc20Inscription := { tick := "ordi", amt := some a }

theorem mint_cap_supply_witness :
    CapInv sampleMap ∧
    CapInv (applyMintOps sampleCtf [(sampleMint "100", sampleTx)]
      (sampleMap, [], [])).1 :=
  ⟨by decide, (mint_cap_supply sampleCtf [(sampleMint "100", sampleTx)]
    (sampleMap, [], []) (by decide)).1⟩

/-- C9: a mint returned invalid by `validate_mint` always carries amount 0:
the amount field is only ever assigned on the accepted paths, and
`Brc20MintTx::new` initializes it to 0. -/
theorem rejected_mint_zero_amount (self : Brc20MintTx)
    (ctf : String → Nat → Except String ℚ) (tx : Brc20Tx) (tm : TickerMap)
    (itm : InvalidBrc20TxMap)
    (h : (self.validate_mint ctf tx tm itm).1.is_valid = false) :
    (self.validate_mint ctf tx tm itm).1.amount = 0 := by
  cases hget : TickerMap.get? tm self.mint.tick with
  | none => rw [validate_mint_none self ctf tx tm itm hget]; rfl
  | some tk =>
    cases hconv : convert_amount ctf self.mint.amt tk.get_decimals with
    | error e => rw [validate_mint_err self ctf tx tm itm tk e hget hconv]; rfl
    | ok a =>
      by_cases hlim : a ≤ tk.get_limit
      · by_cases hover : tk.get_total_supply + a ≤ tk.get_max_supply
        · rw [validate_mint_ok self ctf tx tm itm tk a hget hconv hlim hover] at h
          simp [Brc20MintTx.new] at h
        · rw [validate_mint_clamp self ctf tx tm itm tk a hget hconv hlim
            (not_le.mp hover)] at h
          simp [Brc20MintTx.new] at h
      · rw [validate_mint_limit self ctf tx tm itm tk a hget hconv (not_le.mp hlim)]
        rfl

theorem rejected_mint_zero_amount_witness :
    ((Brc20MintTx.new sampleTx (sampleMint "1")).validate_mint sampleCtf
      sampleTx [] []).1.is_valid = false ∧
    ((Brc20MintTx.new sampleTx (sampleMint "1")).validate_mint sampleCtf
      sampleTx [] []).1.amount = 0 :=
  ⟨by decide, rejected_mint_zero_amount _ sampleCtf sampleTx [] [] (by decide)⟩

/-- C4: validation is all-or-nothing: whenever `validate_mint` returns an
invalid result, the Ticker Registry is returned unchanged and the only
mutation is one `InvalidOperation` entry appended to the invalid-transaction
ledger, carrying the transaction id and the original inscription. -/
theorem rejected_mint_atomicity (self : Brc20MintTx)
    (ctf : String → Nat → Except String ℚ) (tx : Brc20Tx) (tm : TickerMap)
    (itm : InvalidBrc20TxMap)
    (h : (self.validate_mint ctf tx tm itm).1.is_valid = false) :
    (self.validate_mint ctf tx tm itm).2.1 = tm ∧
    ∃ reason, (self.validate_mint ctf tx tm itm).2.2 =
      itm.add_invalid_tx { txid := tx.txid, mint := self.mint, reason := reason } := by
  cases hget : TickerMap.get? tm self.mint.tick with
  | none =>
    rw [validate_mint_none self ctf tx tm itm hget]
    exact ⟨rfl, "Ticker symbol does not exist", rfl⟩
  | some tk =>
    cases hconv : convert_amount ctf self.mint.amt tk.get_decimals with
    | error e =>
      rw [validate_mint_err self ctf tx tm itm tk e hget hconv]
      exact ⟨rfl, e, rfl⟩
    | ok a =>
      by_cases hlim : a ≤ tk.get_limit
      · by_cases hover : tk.get_total_supply + a ≤ tk.get_max_supply
        · rw [validate_mint_ok self ctf tx tm itm tk a hget hconv hlim hover] at h
          simp [Brc20MintTx.new] at h
        · rw [validate_mint_clamp self ctf tx tm itm tk a hget hconv hlim
            (not_le.mp hover)] at h
          simp [Brc20MintTx.new] at h
      · rw [validate_mint_limit self ctf tx tm itm tk a hget hconv (not_le.mp hlim)]
        exact ⟨rfl, "Mint amount exceeds limit", rfl⟩

theorem rejected_mint_atomicity_witness :
    ((Brc20MintTx.new sampleTx (sampleMint "100")).validate_mint sampleCtf
      sampleTx [] []).1.is_valid = false ∧
    ((Brc20MintTx.new sampleTx (sampleMint "100")).validate_mint sampleCtf
      sampleTx [] []).2.1 = [] :=
  ⟨by decide,
    (rejected_mint_atomicity _ sampleCtf sampleTx [] [] (by decide)).1⟩

/-- C2 counterexample: a mint of 950 against a per-mint limit of 100 is
rejected, but the recorded reason string is "Mint amount exceeds limit"; no
ledger entry carries the claimed reason "mint amount exceeds limit". -/
theorem mint_limit_reason_cex :
    (((Brc20MintTx.new sampleTx (sampleMint "950")).validate_mint sampleCtf
      sampleTx sampleMap []).2.2.map InvalidBrc20Tx.reason) =
      ["Mint amount exceeds limit"] ∧
    ("Mint amount exceeds limit" : String) ≠ "mint amount exceeds limit" := by
  decide

/-- C2 (amended): a mint whose resolved amount strictly exceeds the per-mint
limit is marked invalid, recorded in the Invalid-Operation Ledger with reason
"Mint amount exceeds limit" (the source capitalizes the first word), and the
Ticker Registry — hence every `total_minted` — is left unchanged. -/
theorem mint_limit_rejection (self : Brc20MintTx)
    (ctf : String → Nat → Except String ℚ) (tx : Brc20Tx) (tm : TickerMap)
    (itm : InvalidBrc20TxMap) (tk : Brc20Ticker) (a : ℚ)
    (hget : TickerMap.get? tm self.mint.tick = some tk)
    (hconv : convert_amount ctf self.mint.amt tk.get_decimals = Except.ok a)
    (hlim : tk.get_limit < a) :
    (self.validate_mint ctf tx tm itm).1.is_valid = false ∧
    (self.validate_mint ctf tx tm itm).2.2 = itm.add_invalid_tx
      { txid := tx.txid, mint := self.mint,
        reason := "Mint amount exceeds limit" } ∧
    (self.validate_mint ctf tx tm itm).2.1 = tm := by
  rw [validate_mint_limit self ctf tx tm itm tk a hget hconv hlim]
  exact ⟨rfl, rfl, rfl⟩

theorem mint_limit_rejection_witness :
    TickerMap.get? sampleMap (sampleMint "950").tick = some sampleTicker ∧
    convert_amount sampleCtf (sampleMint "950").amt sampleTicker.get_decimals =
      Except.ok 950 ∧
    sampleTicker.get_limit < 950 ∧
    ((Brc20MintTx.new sampleTx (sampleMint "950")).validate_mint sampleCtf
      sampleTx sampleMap []).1.is_valid = false :=
  ⟨by decide, by rfl, by decide,
    (mint_limit_rejection _ sampleCtf sampleTx sampleMap [] sampleTicker 950
      (by decide) (by rfl) (by decide)).1⟩

/-- C3 counterexample: a mint against an empty Ticker Registry is rejected,
but the recorded reason string is "Ticker symbol does not exist"; no ledger
entry carries the claimed reason "ticker does not exist". -/
theorem mint_unknown_ticker_reason_cex :
    (((Brc20MintTx.new sampleTx (sampleMint "1")).validate_mint sampleCtf
      sampleTx [] []).2.2.map InvalidBrc20Tx.reason) =
      ["Ticker symbol does not exist"] ∧
    ("Ticker symbol does not exist" : String) ≠ "ticker does not exist" := by
  decide

/-- C3 (amended): a mint whose ticker symbol is absent from the Ticker
Registry is marked invalid, recorded in the Invalid-Operation Ledger with
reason "Ticker symbol does not exist" (not the claim's "ticker does not
exist"), the registry is returned unchanged, and no balance event is
emitted for the rejected result. -/
theorem mint_unknown_ticker_rejection (self : Brc20MintTx)
    (ctf : String → Nat → Except String ℚ) (tx : Brc20Tx) (tm : TickerMap)
    (itm : InvalidBrc20TxMap) (height : Nat)
    (hget : TickerMap.get? tm self.mint.tick = none) :
    (self.validate_mint ctf tx tm itm).1.is_valid = false ∧
    (self.validate_mint ctf tx tm itm).2.1 = tm ∧
    (self.validate_mint ctf tx tm itm).2.2 = itm.add_invalid_tx
      { txid := tx.txid, mint := self.mint,
        reason := "Ticker symbol does not exist" } ∧
    mintBalanceEvents (self.validate_mint ctf tx tm itm).1 height = [] := by
  rw [validate_mint_none self ctf tx tm itm hget]
  exact ⟨rfl, rfl, rfl, rfl⟩

theorem mint_unknown_ticker_rejection_witness :
    TickerMap.get? [] (sampleMint "1").tick = none ∧
    mintBalanceEvents ((Brc20MintTx.new sampleTx (sampleMint "1")).validate_mint
      sampleCtf sampleTx [] []).1 0 = [] :=
  ⟨by decide,
    (mint_unknown_ticker_rejection _ sampleCtf sampleTx [] [] 0 (by decide)).2.2.2⟩

/-! ## Rebuild-fold characterization -/

/-- The additive balance change a single entry contributes, per event kind. -/
def delta (e : UserBalanceEntry) : ℚ × ℚ × ℚ :=
  match e.entry_type with
  | UserBalanceEntryType.Receive => (e.amt, 0, e.amt)
  | UserBalanceEntryType.Send => (0, -e.amt, -e.amt)
  | UserBalanceEntryType.Inscription => (-e.amt, e.amt, 0)

theorem rbStep_eq_add (b : ℚ × ℚ × ℚ) (e : UserBalanceEntry) :
    rbStep b e = b + delta e := by
  obtain ⟨b1, b2, b3⟩ := b
  cases h : e.entry_type <;>
    simp [rbStep, delta, h, Prod.mk_add_mk, sub_eq_add_neg]

/-- The entries of a log touching one (address, ticker) pair, in order. -/
def keyMatches (k : String × String) : List UserBalanceEntry → List UserBalanceEntry
  | [] => []
  | e :: rest => if (e.address, e.tick) = k then e :: keyMatches k rest
      else keyMatches k rest

theorem keyMatches_eq_filter (k : String × String) (l : List UserBalanceEntry) :
    keyMatches k l = l.filter (fun e => decide ((e.address, e.tick) = k)) := by
  induction l with
  | nil => rfl
  | cons e rest ih =>
    by_cases h : (e.address, e.tick) = k <;>
      simp [keyMatches, List.filter_cons, h, ih]

/-- The componentwise sum of the per-entry balance changes of a log. -/
def sumDeltas (l : List UserBalanceEntry) : ℚ × ℚ × ℚ :=
  (l.map delta).sum

theorem zero_triple : ((0, 0, 0) : ℚ × ℚ × ℚ) = 0 := rfl

theorem sumDeltas_nil : sumDeltas [] = 0 := rfl

theorem sumDeltas_cons (e : UserBalanceEntry) (l : List UserBalanceEntry) :
    sumDeltas (e :: l) = delta e + sumDeltas l := by
  simp [sumDeltas]

theorem rbFind_append_some {m₁ : RebuildMap} (m₂ : RebuildMap)
    {k : String × String} {v : ℚ × ℚ × ℚ} (h : rbFind m₁ k = some v) :
    rbFind (m₁ ++ m₂) k = some v := by
  induction m₁ with
  | nil => simp [rbFind] at h
  | cons p rest ih =>
    by_cases hp : p.1 = k
    · rw [rbFind, if_pos hp] at h
      rw [List.cons_append, rbFind, if_pos hp]
      exact h
    · rw [rbFind, if_neg hp] at h
      rw [List.cons_append, rbFind, if_neg hp]
      exact ih h

theorem rbFind_append_none {m₁ : RebuildMap} (m₂ : RebuildMap)
    {k : String × String} (h : rbFind m₁ k = none) :
    rbFind (m₁ ++ m₂) k = rbFind m₂ k := by
  induction m₁ with
  | nil => rfl
  | cons p rest ih =>
    by_cases hp : p.1 = k
    · rw [rbFind, if_pos hp] at h
      exact absurd h (by simp)
    · rw [rbFind, if_neg hp] at h
      rw [List.cons_append, rbFind, if_neg hp]
      exact ih h

theorem rbFind_rbPatch (m : RebuildMap) (k k' : String × String)
    (f : ℚ × ℚ × ℚ → ℚ × ℚ × ℚ) :
    rbFind (rbPatch m k f) k' =
      if k' = k then (rbFind m k').map f else rbFind m k' := by
  induction m with
  | nil => simp [rbPatch, rbFind]
  | cons p rest ih =>
    rw [rbPatch]
    by_cases hp : p.1 = k
    · rw [if_pos hp]
      by_cases hk : k' = k
      · subst hk
        simp [rbFind, hp]
      · have hpk' : ¬ p.1 = k' := fun h => hk (h ▸ hp)
        simp [rbFind, hk, hpk']
    · rw [if_neg hp]
      by_cases hpk' : p.1 = k'
      · have hk : ¬ k' = k := fun h => hp (h ▸ hpk')
        simp [rbFind, hpk', hk]
      · simp [rbFind, hpk', ih]

/-- The single-step effect of `rbUpdate` on lookups: the entry's own key is
stepped from its current triple (zero when absent), every other key is
untouched. -/
theorem rbFind_rbUpdate (m : RebuildMap) (e : UserBalanceEntry)
    (k : String × String) :
    rbFind (rbUpdate m e) k =
      if k = (e.address, e.tick) then
        some (rbStep ((rbFind m k).getD (0, 0, 0)) e)
      else rbFind m k := by
  rw [rbUpdate]
  cases hf : rbFind m (e.address, e.tick) with
  | some v =>
    rw [rbFind_rbPatch]
    by_cases hk : k = (e.address, e.tick)
    · subst hk
      rw [if_pos rfl, if_pos rfl, hf]
      rfl
    · rw [if_neg hk, if_neg hk]
  | none =>
    by_cases hk : k = (e.address, e.tick)
    · subst hk
      rw [if_pos rfl, rbFind_append_none _ hf, hf]
      simp [rbFind]
    · rw [if_neg hk]
      cases hm : rbFind m k with
      | some v => exact rbFind_append_some _ hm
      | none =>
        rw [rbFind_append_none _ hm]
        have : ¬ ((e.address, e.tick) : String × String) = k := fun h => hk h.symm
        simp [rbFind, this]

/-- Lookup after folding a log into a rebuild map: the stored triple is the
starting triple plus the sum of the per-entry changes of the entries touching
the key; a key never touched and absent from the start stays absent. -/
theorem rbFind_foldl (l : List UserBalanceEntry) (m : RebuildMap)
    (k : String × String) :
    rbFind (l.foldl rbUpdate m) k =
      match rbFind m k with
      | some v => some (v + sumDeltas (keyMatches k l))
      | none => if keyMatches k l = [] then none
          else some (sumDeltas (keyMatches k l)) := by
  induction l generalizing m with
  | nil =>
    cases hm : rbFind m k <;> simp [keyMatches, sumDeltas_nil, hm]
  | cons e rest ih =>
    rw [List.foldl_cons, ih]
    rw [rbFind_rbUpdate]
    by_cases hk : k = (e.address, e.tick)
    · have hmatch : (e.address, e.tick) = k := hk.symm
      rw [if_pos hk, keyMatches, if_pos hmatch, sumDeltas_cons]
      cases hm : rbFind m k with
      | some v =>
        simp only [Option.getD_some, rbStep_eq_add]
        rw [add_assoc]
      | none =>
        simp only [Option.getD_none, rbStep_eq_add, zero_triple, zero_add]
        simp [List.cons_ne_nil]
    · have hmatch : ¬ ((e.address, e.tick) : String × String) = k :=
        fun h => hk h.symm
      rw [if_neg hk, keyMatches, if_neg hmatch]

/-- C10: the rebuild fold is order-independent: folding the per-kind update
rules of `rebuild_user_balances` over any permutation of a balance-event log
yields the same final (available, transferable, overall) triple for every
(address, ticker) pair, because each event kind only adds a per-entry delta
that commutes under exact arithmetic. -/
theorem rebuild_fold_perm (l l' : List UserBalanceEntry) (h : l.Perm l')
    (k : String × String) :
    rbFind (computeUserBalances l) k = rbFind (computeUserBalances l') k := by
  unfold computeUserBalances
  rw [rbFind_foldl, rbFind_foldl]
  have hperm : (keyMatches k l).Perm (keyMatches k l') := by
    rw [keyMatches_eq_filter, keyMatches_eq_filter]
    exact h.filter _
  have hsum : sumDeltas (keyMatches k l) = sumDeltas (keyMatches k l') :=
    List.Perm.sum_eq (hperm.map delta)
  have hnil : (keyMatches k l = []) ↔ (keyMatches k l' = []) := by
    rw [← List.length_eq_zero, ← List.length_eq_zero, hperm.length_eq]
  simp only [rbFind]
  by_cases hc : keyMatches k l = []
  · rw [if_pos hc, if_pos (hnil.mp hc)]
  · rw [if_neg hc, if_neg (fun hh => hc (hnil.mpr hh)), hsum]

def entryRecv : UserBalanceEntry :=
  { address := "a", tick := "t", block_height := 0, amt := 5,
    entry_type := UserBalanceEntryType.Receive }

def entrySend : UserBalanceEntry :=
  { address := "a", tick := "t", block_height := 1, amt := 2,
    entry_type := UserBalanceEntryType.Send }

def entryIns : UserBalanceEntry :=
  { address := "a", tick := "t", block_height := 2, amt := 1,
    entry_type := UserBalanceEntryType.Inscription }

theorem rebuild_fold_perm_witness :
    List.Perm [entryRecv, entrySend] [entrySend, entryRecv] ∧
    rbFind (computeUserBalances [entryRecv, entrySend]) ("a", "t") =
      rbFind (computeUserBalances [entrySend, entryRecv]) ("a", "t") :=
  ⟨List.Perm.swap entrySend entryRecv [],
    rebuild_fold_perm _ _ (List.Perm.swap entrySend entryRecv []) _⟩

/-! ## The overall = available + transferable invariant -/

/-- The balance invariant of the materialized view: every stored document's
overall balance is the sum of its available and transferable balances. -/
def BalInv (s : BalStore) : Prop :=
  ∀ r ∈ s, r.overall_balance = r.available_balance + r.transferable_balance

instance (s : BalStore) : Decidable (BalInv s) :=
  inferInstanceAs (Decidable (∀ r ∈ s,
    r.overall_balance = r.available_balance + r.transferable_balance))

theorem findBalance_mem {s : BalStore} {a t : String} {d : UserBalance}
    (h : findBalance s a t = some d) : d ∈ s := by
  induction s with
  | nil => simp [findBalance] at h
  | cons r rest ih =>
    by_cases hr : r.address = a ∧ r.tick = t
    · rw [findBalance, if_pos hr, Option.some_inj] at h
      exact h ▸ List.mem_cons_self _ _
    · rw [findBalance, if_neg hr] at h
      exact List.mem_cons_of_mem _ (ih h)

theorem mem_updateFirst_find {s : BalStore} {a t : String} {d q : UserBalance}
    {f : UserBalance → UserBalance} (hfind : findBalance s a t = some d)
    (hq : q ∈ updateFirstBalance f s a t) : q ∈ s ∨ q = f d := by
  induction s with
  | nil => simp [updateFirstBalance] at hq
  | cons r rest ih =>
    by_cases hr : r.address = a ∧ r.tick = t
    · rw [findBalance, if_pos hr, Option.some_inj] at hfind
      rw [updateFirstBalance, if_pos hr] at hq
      rcases List.mem_cons.mp hq with hq' | hq'
      · exact Or.inr (hfind ▸ hq')
      · exact Or.inl (List.mem_cons_of_mem _ hq')
    · rw [findBalance, if_neg hr] at hfind
      rw [updateFirstBalance, if_neg hr] at hq
      rcases List.mem_cons.mp hq with hq' | hq'
      · exact Or.inl (hq' ▸ List.mem_cons_self _ _)
      · rcases ih hfind hq' with hq'' | hq''
        · exact Or.inl (List.mem_cons_of_mem _ hq'')
        · exact Or.inr hq''

theorem findBalance_append_none {s : BalStore} (s₂ : BalStore) {a t : String}
    (h : findBalance s a t = none) :
    findBalance (s ++ s₂) a t = findBalance s₂ a t := by
  induction s with
  | nil => rfl
  | cons r rest ih =>
    by_cases hr : r.address = a ∧ r.tick = t
    · rw [findBalance, if_pos hr] at h
      exact absurd h (by simp)
    · rw [findBalance, if_neg hr] at h
      rw [List.cons_append, findBalance, if_neg hr]
      exact ih h

theorem updateFirstBalance_append (f : UserBalance → UserBalance) {s : BalStore}
    {a t : String} (r₀ : UserBalance) (h : findBalance s a t = none)
    (hr : r₀.address = a ∧ r₀.tick = t) :
    updateFirstBalance f (s ++ [r₀]) a t = s ++ [f r₀] := by
  induction s with
  | nil => simp [updateFirstBalance, hr]
  | cons r rest ih =>
    by_cases hrr : r.address = a ∧ r.tick = t
    · rw [findBalance, if_pos hrr] at h
      exact absurd h (by simp)
    · rw [findBalance, if_neg hrr] at h
      rw [List.cons_append, updateFirstBalance, if_neg hrr, ih h,
        List.cons_append]

/-- Each of the three incremental update paths preserves the balance
invariant. -/
theorem applyEvent_balInv (s : BalStore) (e : UserBalanceEntry)
    (h : BalInv s) : BalInv (applyEvent s e) := by
  have hnew : ∀ a t, BalInv (s ++ [UserBalance.new a t]) := by
    intro a t q hq
    rcases List.mem_append.mp hq with hq' | hq'
    · exact h q hq'
    · rcases List.mem_singleton.mp hq' with rfl
      simp [UserBalance.new]
  cases he : e.entry_type with
  | Receive =>
    simp only [applyEvent, he, update_receiver_balance_document]
    cases hf : findBalance s e.address e.tick with
    | some d =>
      intro q hq
      rcases mem_updateFirst_find hf hq with hq' | rfl
      · exact h q hq'
      · have hd := h d (findBalance_mem hf)
        simp only
        linarith
    | none =>
      intro q hq
      rcases List.mem_append.mp hq with hq' | hq'
      · exact h q hq'
      · rcases List.mem_singleton.mp hq' with rfl
        simp [UserBalance.new]
  | Send =>
    simp only [applyEvent, he, update_sender_user_balance_document]
    cases hf : findBalance s e.address e.tick with
    | some d =>
      intro q hq
      rcases mem_updateFirst_find hf hq with hq' | rfl
      · exact h q hq'
      · have hd := h d (findBalance_mem hf)
        simp only
        linarith
    | none => exact h
  | Inscription =>
    simp only [applyEvent, he, update_transfer_inscriber_user_balance_document]
    cases hf : findBalance s e.address e.tick with
    | some d =>
      intro q hq
      rcases mem_updateFirst_find hf hq with hq' | rfl
      · exact h q hq'
      · have hd := h d (findBalance_mem hf)
        simp only
        linarith
    | none =>
      have hfind : findBalance (s ++ [UserBalance.new e.address e.tick])
          e.address e.tick = some (UserBalance.new e.address e.tick) := by
        rw [findBalance_append_none _ hf]
        simp [findBalance, UserBalance.new]
      intro q hq
      rcases mem_updateFirst_find hfind hq with hq' | rfl
      · exact hnew e.address e.tick q hq'
      · simp [UserBalance.new]

theorem applyEvents_balInv (s : BalStore) (l : List UserBalanceEntry)
    (h : BalInv s) : BalInv (applyEvents s l) := by
  induction l generalizing s with
  | nil => exact h
  | cons e rest ih => exact ih _ (applyEvent_balInv s e h)

theorem delta_inv (e : UserBalanceEntry) :
    (delta e).2.2 = (delta e).1 + (delta e).2.1 := by
  cases he : e.entry_type <;> simp [delta, he]

theorem sumDeltas_inv (l : List UserBalanceEntry) :
    (sumDeltas l).2.2 = (sumDeltas l).1 + (sumDeltas l).2.1 := by
  induction l with
  | nil => simp [sumDeltas_nil]
  | cons e rest ih =>
    rw [sumDeltas_cons]
    simp only [Prod.fst_add, Prod.snd_add]
    have := delta_inv e
    linarith

theorem computeUserBalances_inv (l : List UserBalanceEntry)
    (k : String × String) (v : ℚ × ℚ × ℚ)
    (h : rbFind (computeUserBalances l) k = some v) :
    v.2.2 = v.1 + v.2.1 := by
  unfold computeUserBalances at h
  rw [rbFind_foldl] at h
  simp only [rbFind] at h
  by_cases hc : keyMatches k l = []
  · rw [if_pos hc] at h
    exact absurd h (by simp)
  · rw [if_neg hc, Option.some_inj] at h
    exact h ▸ sumDeltas_inv _

/-- C6: after every balance-event application the materialized balance of
every (address, ticker) pair satisfies overall = available + transferable,
both along the incremental path (single event and any sequence) and in the
balances computed by a full rebuild from the event log. -/
theorem balance_invariant_overall :
    (∀ (s : BalStore) (e : UserBalanceEntry), BalInv s → BalInv (applyEvent s e)) ∧
    (∀ (s : BalStore) (l : List UserBalanceEntry), BalInv s →
      BalInv (applyEvents s l)) ∧
    (∀ (l : List UserBalanceEntry) (k : String × String) (v : ℚ × ℚ × ℚ),
      rbFind (computeUserBalances l) k = some v → v.2.2 = v.1 + v.2.1) :=
  ⟨applyEvent_balInv, applyEvents_balInv, computeUserBalances_inv⟩

theorem balance_invariant_overall_witness :
    BalInv [] ∧ BalInv (applyEvents [] [entryRecv, entryIns, entrySend]) :=
  ⟨by decide,
    balance_invariant_overall.2.1 [] [entryRecv, entryIns, entrySend] (by decide)⟩

/-- The Receive update rule applied to a zero balance for the pair. -/
def receiveOnZero (a t : String) (amt : ℚ) : UserBalance :=
  { address := a, tick := t, available_balance := amt,
    transferable_balance := 0, overall_balance := amt }

/-- The Send update rule applied to a zero balance for the pair. -/
def sendOnZero (a t : String) (amt : ℚ) : UserBalance :=
  { address := a, tick := t, available_balance := 0,
    transferable_balance := 0 - amt, overall_balance := 0 - amt }

/-- The Inscribe-for-transfer update rule applied to a zero balance. -/
def inscribeOnZero (a t : String) (amt : ℚ) : UserBalance :=
  { address := a, tick := t, available_balance := 0 - amt,
    transferable_balance := 0 + amt, overall_balance := 0 }

/-- An Inscribe-for-transfer balance event. -/
def insEntry (a t : String) (amt : ℚ) (bh : Nat) : UserBalanceEntry :=
  { address := a, tick := t, block_height := bh, amt := amt,
    entry_type := UserBalanceEntryType.Inscription }

/-- C5 counterexample: a Send event for a pair with no existing `UserBalance`
performs no update at all — the store stays empty — instead of creating a
zero balance and applying the Send rule to it. -/
theorem send_no_creation_cex :
    update_sender_user_balance_document [] "alice" 5 "ordi" = [] ∧
    ([] : BalStore) ≠ [sendOnZero "alice" "ordi" 5] := by
  constructor
  · rfl
  · simp

/-- C5 (amended): when no `UserBalance` exists for the pair, a Receive event
creates one equal to the Receive rule applied to the zero balance, and an
Inscribe-for-transfer event (through the modelled dispatch that creates a
zero balance first) yields the Inscribe rule applied to the zero balance; a
Send event, however, performs no update at all — no balance is created. -/
theorem balance_missing_pair (s : BalStore) (a t : String) (amt : ℚ) (bh : Nat)
    (h : findBalance s a t = none) :
    update_receiver_balance_document s a amt t = s ++ [receiveOnZero a t amt] ∧
    update_sender_user_balance_document s a amt t = s ∧
    applyEvent s (insEntry a t amt bh) = s ++ [inscribeOnZero a t amt] := by
  refine ⟨?_, ?_, ?_⟩
  · simp [update_receiver_balance_document, h, UserBalance.new, receiveOnZero]
  · simp [update_sender_user_balance_document, h]
  · simp only [applyEvent, update_transfer_inscriber_user_balance_document,
      insEntry, h]
    rw [updateFirstBalance_append _ (UserBalance.new a t) h ⟨rfl, rfl⟩]
    rfl

theorem balance_missing_pair_witness :
    findBalance [] "a" "t" = none ∧
    update_sender_user_balance_document [] "a" 5 "t" = [] :=
  ⟨by decide, (balance_missing_pair [] "a" "t" 5 0 (by decide)).2.1⟩

/-! ## Reconciliation agrees with the incremental counter -/

/-- The reconciliation invariant: for every registered ticker, the sum of the
stored amounts of its persisted accepted-mint records equals its incrementally
maintained `total_minted`. -/
def ReconInv (tm : TickerMap) (mints : List MintDoc) : Prop :=
  ∀ p ∈ tm, sumMintAmounts mints p.1 = p.2.total_minted

instance (tm : TickerMap) (mints : List MintDoc) :
    Decidable (ReconInv tm mints) :=
  inferInstanceAs (Decidable (∀ p ∈ tm, sumMintAmounts mints p.1 = p.2.total_minted))

theorem sumMintAmounts_append (mints : List MintDoc) (d : MintDoc) (k : String) :
    sumMintAmounts (mints ++ [d]) k =
      sumMintAmounts mints k + (if d.tick = k then d.amt else 0) := by
  by_cases hd : d.tick = k <;>
    simp [sumMintAmounts, List.filter_append, List.filter_cons, hd]

/-- One accepted mint preserves the reconciliation invariant: the registry
entry under the minted key gains exactly the credited amount that the
appended mint record stores. -/
theorem recon_set_step {tm : TickerMap} {mints : List MintDoc}
    (h : ReconInv tm mints) (key : String) (tk : Brc20Ticker)
    (hsum : sumMintAmounts mints key = tk.total_minted) (c : ℚ)
    (v : Brc20Ticker) (hv : v.total_minted = tk.total_minted + c) :
    ReconInv (TickerMap.set tm key v) (mints ++ [{ tick := key, amt := c }]) := by
  intro q hq
  rcases TickerMap.mem_set hq with rfl | hq'
  · show sumMintAmounts (mints ++ [{ tick := key, amt := c }]) key = v.total_minted
    rw [sumMintAmounts_append, if_pos rfl, hv, hsum]
  · show sumMintAmounts (mints ++ [{ tick := key, amt := c }]) q.1 =
      q.2.total_minted
    rw [sumMintAmounts_append, if_neg (fun hh => hq'.2 hh.symm), add_zero]
    exact h q hq'.1

theorem applyMintOp_recon (ctf : String → Nat → Except String ℚ)
    (st : TickerMap × InvalidBrc20TxMap × List MintDoc)
    (op : Brc20Inscription × Brc20Tx) (h : ReconInv st.1 st.2.2) :
    ReconInv (applyMintOp ctf st op).1 (applyMintOp ctf st op).2.2 := by
  obtain ⟨tm, itm, mints⟩ := st
  simp only [applyMintOp]
  cases hget : TickerMap.get? tm op.1.tick with
  | none =>
    rw [validate_mint_none _ ctf op.2 tm itm hget]
    simpa [mintDocsOf, Brc20MintTx.new] using h
  | some tk =>
    cases hconv : convert_amount ctf op.1.amt tk.get_decimals with
    | error e =>
      rw [validate_mint_err _ ctf op.2 tm itm tk e hget hconv]
      simpa [mintDocsOf, Brc20MintTx.new] using h
    | ok a =>
      by_cases hlim : a ≤ tk.get_limit
      · have hsum : sumMintAmounts mints op.1.tick = tk.total_minted :=
          h (op.1.tick, tk) (TickerMap.get?_mem hget)
        by_cases hover : tk.get_total_supply + a ≤ tk.get_max_supply
        · rw [validate_mint_ok _ ctf op.2 tm itm tk a hget hconv hlim hover]
          exact recon_set_step h op.1.tick tk hsum a
            (tk.add_mint { Brc20MintTx.new op.2 op.1 with
              amount := a, is_valid := true }) rfl
        · rw [validate_mint_clamp _ ctf op.2 tm itm tk a hget hconv hlim
            (not_le.mp hover)]
          exact recon_set_step h op.1.tick tk hsum
            (tk.get_max_supply - tk.get_total_supply)
            (tk.add_mint { Brc20MintTx.new op.2 op.1 with
              amount := tk.get_max_supply - tk.get_total_supply,
              is_valid := true }) rfl
      · rw [validate_mint_limit _ ctf op.2 tm itm tk a hget hconv
          (not_le.mp hlim)]
        simpa [mintDocsOf, Brc20MintTx.new] using h

theorem applyMintOps_recon (ctf : String → Nat → Except String ℚ)
    (ops : List (Brc20Inscription × Brc20Tx))
    (st : TickerMap × InvalidBrc20TxMap × List MintDoc)
    (h : ReconInv st.1 st.2.2) :
    ReconInv (applyMintOps ctf ops st).1 (applyMintOps ctf ops st).2.2 := by
  induction ops generalizing st with
  | nil => exact h
  | cons op rest ih => exact ih _ (applyMintOp_recon ctf st op h)

theorem calculate_eq_of_recon (tm : TickerMap) (mints : List MintDoc)
    (h : ReconInv tm mints) :
    calculate_and_update_total_minted tm mints = tm := by
  induction tm with
  | nil => rfl
  | cons p rest ih =>
    have h1 : sumMintAmounts mints p.1 = p.2.total_minted :=
      h p (List.mem_cons_self _ _)
    have h2 := ih (fun q hq => h q (List.mem_cons_of_mem _ hq))
    simp only [calculate_and_update_total_minted, List.map_cons] at h2 ⊢
    rw [h1, h2]

/-- C8: reconciliation agrees with the incremental counter: after any mint
sequence, summing the stored (credited, possibly clamped) amounts of the
persisted accepted-mint records per ticker reproduces every ticker's
incrementally maintained `total_minted`, so the overwrite performed by
`calculate_and_update_total_minted` leaves the registry unchanged. -/
theorem reconciliation_matches_incremental (ctf : String → Nat → Except String ℚ)
    (ops : List (Brc20Inscription × Brc20Tx))
    (st : TickerMap × InvalidBrc20TxMap × List MintDoc)
    (h : ReconInv st.1 st.2.2) :
    ReconInv (applyMintOps ctf ops st).1 (applyMintOps ctf ops st).2.2 ∧
    calculate_and_update_total_minted (applyMintOps ctf ops st).1
      (applyMintOps ctf ops st).2.2 = (applyMintOps ctf ops st).1 := by
  have h' := applyMintOps_recon ctf ops st h
  exact ⟨h', calculate_eq_of_recon _ _ h'⟩

def sampleDocs : List MintDoc := [{ tick := "ordi", amt := 900 }]

theorem reconciliation_matches_incremental_witness :
    ReconInv sampleMap sampleDocs ∧
    calculate_and_update_total_minted
      (applyMintOps sampleCtf [(sampleMint "100", sampleTx)]
        (sampleMap, [], sampleDocs)).1
      (applyMintOps sampleCtf [(sampleMint "100", sampleTx)]
        (sampleMap, [], sampleDocs)).2.2 =
      (applyMintOps sampleCtf [(sampleMint "100", sampleTx)]
        (sampleMap, [], sampleDocs)).1 := by
  have h : ReconInv sampleMap sampleDocs := by
    intro p hp
    simp only [sampleMap, List.mem_singleton] at hp
    subst hp
    show sumMintAmounts sampleDocs "ordi" = (900 : ℚ)
    simp [sumMintAmounts, sampleDocs]
  exact ⟨h, (reconciliation_matches_incremental sampleCtf
    [(sampleMint "100", sampleTx)] (sampleMap, [], sampleDocs) h).2⟩

/-! ## Rebuild versus incremental application -/

theorem findBalance_append_some {s : BalStore} (s₂ : BalStore) {a t : String}
    {d : UserBalance} (h : findBalance s a t = some d) :
    findBalance (s ++ s₂) a t = some d := by
  induction s with
  | nil => simp [findBalance] at h
  | cons r rest ih =>
    by_cases hr : r.address = a ∧ r.tick = t
    · rw [findBalance, if_pos hr] at h
      rw [List.cons_append, findBalance, if_pos hr]
      exact h
    · rw [findBalance, if_neg hr] at h
      rw [List.cons_append, findBalance, if_neg hr]
      exact ih h

theorem findBalance_updateFirst_self {f : UserBalance → UserBalance}
    (hf : ∀ r, (f r).address = r.address ∧ (f r).tick = r.tick)
    {s : BalStore} {a t : String} {d : UserBalance}
    (hfind : findBalance s a t = some d) :
    findBalance (updateFirstBalance f s a t) a t = some (f d) := by
  induction s with
  | nil => simp [findBalance] at hfind
  | cons r rest ih =>
    by_cases hr : r.address = a ∧ r.tick = t
    · rw [findBalance, if_pos hr, Option.some_inj] at hfind
      rw [updateFirstBalance, if_pos hr, findBalance,
        if_pos ⟨(hf r).1.trans hr.1, (hf r).2.trans hr.2⟩, hfind]
    · rw [findBalance, if_neg hr] at hfind
      rw [updateFirstBalance, if_neg hr, findBalance, if_neg hr]
      exact ih hfind

theorem findBalance_updateFirst_ne {f : UserBalance → UserBalance}
    (hf : ∀ r, (f r).address = r.address ∧ (f r).tick = r.tick)
    (s : BalStore) {a₀ t₀ a t : String} (hk : ¬(a = a₀ ∧ t = t₀)) :
    findBalance (updateFirstBalance f s a₀ t₀) a t = findBalance s a t := by
  induction s with
  | nil => rfl
  | cons r rest ih =>
    by_cases hr : r.address = a₀ ∧ r.tick = t₀
    · rw [updateFirstBalance, if_pos hr]
      have hrat : ¬(r.address = a ∧ r.tick = t) :=
        fun hh => hk ⟨hh.1.symm.trans hr.1, hh.2.symm.trans hr.2⟩
      have hfrat : ¬((f r).address = a ∧ (f r).tick = t) :=
        fun hh => hrat ⟨(hf r).1.symm.trans hh.1, (hf r).2.symm.trans hh.2⟩
      rw [findBalance, if_neg hfrat, findBalance, if_neg hrat]
    · rw [updateFirstBalance, if_neg hr, findBalance, findBalance]
      by_cases hrat : r.address = a ∧ r.tick = t
      · rw [if_pos hrat, if_pos hrat]
      · rw [if_neg hrat, if_neg hrat]
        exact ih

/-- The single-step correspondence between the incremental store update and
the rebuild-map update, provided a Send event never hits an absent pair. -/
theorem applyEvent_step_corr (s : BalStore) (m : RebuildMap)
    (e : UserBalanceEntry)
    (hsm : ∀ a t, (findBalance s a t).map balTriple = rbFind m (a, t))
    (hns : e.entry_type = UserBalanceEntryType.Send →
      rbFind m (e.address, e.tick) ≠ none) :
    ∀ a t, (findBalance (applyEvent s e) a t).map balTriple =
      rbFind (rbUpdate m e) (a, t) := by
  intro a t
  rw [rbFind_rbUpdate]
  by_cases hk : ((a, t) : String × String) = (e.address, e.tick)
  · rw [if_pos hk]
    have h1 : a = e.address := congrArg Prod.fst hk
    have h2 : t = e.tick := congrArg Prod.snd hk
    rw [h1, h2]
    cases hf : findBalance s e.address e.tick with
    | some d =>
      have hv : rbFind m (e.address, e.tick) = some (balTriple d) := by
        rw [← hsm e.address e.tick, hf]
        rfl
      rw [hv]
      cases he : e.entry_type with
      | Receive =>
        simp only [applyEvent, he, update_receiver_balance_document, hf]
        rw [findBalance_updateFirst_self (f := fun r =>
          { r with overall_balance := d.overall_balance + e.amt,
                   available_balance := d.available_balance + e.amt })
          (fun r => ⟨rfl, rfl⟩) hf]
        simp [balTriple, rbStep, he]
      | Send =>
        simp only [applyEvent, he, update_sender_user_balance_document, hf]
        rw [findBalance_updateFirst_self (f := fun r =>
          { r with transferable_balance := d.transferable_balance - e.amt,
                   overall_balance := d.overall_balance - e.amt })
          (fun r => ⟨rfl, rfl⟩) hf]
        simp [balTriple, rbStep, he]
      | Inscription =>
        simp only [applyEvent, he, hf,
          update_transfer_inscriber_user_balance_document]
        rw [findBalance_updateFirst_self (f := fun r =>
          { r with available_balance := d.available_balance - e.amt,
                   transferable_balance := d.transferable_balance + e.amt })
          (fun r => ⟨rfl, rfl⟩) hf]
        simp [balTriple, rbStep, he]
    | none =>
      have hv : rbFind m (e.address, e.tick) = none := by
        rw [← hsm e.address e.tick, hf]
        rfl
      rw [hv]
      cases he : e.entry_type with
      | Receive =>
        simp only [applyEvent, he, update_receiver_balance_document, hf]
        rw [findBalance_append_none _ hf]
        simp [findBalance, UserBalance.new, balTriple, rbStep, he]
      | Send => exact absurd hv (hns he)
      | Inscription =>
        simp only [applyEvent, he, hf,
          update_transfer_inscriber_user_balance_document]
        have hfind2 : findBalance (s ++ [UserBalance.new e.address e.tick])
            e.address e.tick = some (UserBalance.new e.address e.tick) := by
          rw [findBalance_append_none _ hf]
          simp [findBalance, UserBalance.new]
        rw [findBalance_updateFirst_self (f := fun r =>
          { r with
              available_balance :=
                (UserBalance.new e.address e.tick).available_balance - e.amt,
              transferable_balance :=
                (UserBalance.new e.address e.tick).transferable_balance + e.amt })
          (fun r => ⟨rfl, rfl⟩) hfind2]
        simp [balTriple, rbStep, he, UserBalance.new]
  · rw [if_neg hk]
    rw [← hsm a t]
    have hk' : ¬(a = e.address ∧ t = e.tick) := fun hh => hk (by rw [hh.1, hh.2])
    have hk'' : ¬(e.address = a ∧ e.tick = t) :=
      fun hh => hk' ⟨hh.1.symm, hh.2.symm⟩
    congr 1
    cases he : e.entry_type with
    | Receive =>
      cases hf : findBalance s e.address e.tick with
      | some d =>
        simp only [applyEvent, he, update_receiver_balance_document, hf]
        exact findBalance_updateFirst_ne (f := fun r =>
          { r with overall_balance := d.overall_balance + e.amt,
                   available_balance := d.available_balance + e.amt })
          (fun r => ⟨rfl, rfl⟩) s hk'
      | none =>
        simp only [applyEvent, he, update_receiver_balance_document, hf]
        cases hsa : findBalance s a t with
        | some d2 => rw [findBalance_append_some _ hsa]
        | none =>
          rw [findBalance_append_none _ hsa]
          simp [findBalance, UserBalance.new, hk'']
    | Send =>
      cases hf : findBalance s e.address e.tick with
      | some d =>
        simp only [applyEvent, he, update_sender_user_balance_document, hf]
        exact findBalance_updateFirst_ne (f := fun r =>
          { r with transferable_balance := d.transferable_balance - e.amt,
                   overall_balance := d.overall_balance - e.amt })
          (fun r => ⟨rfl, rfl⟩) s hk'
      | none =>
        simp only [applyEvent, he, update_sender_user_balance_document, hf]
    | Inscription =>
      cases hf : findBalance s e.address e.tick with
      | some d =>
        simp only [applyEvent, he, hf,
          update_transfer_inscriber_user_balance_document]
        exact findBalance_updateFirst_ne (f := fun r =>
          { r with available_balance := d.available_balance - e.amt,
                   transferable_balance := d.transferable_balance + e.amt })
          (fun r => ⟨rfl, rfl⟩) s hk'
      | none =>
        simp only [applyEvent, he, hf,
          update_transfer_inscriber_user_balance_document]
        rw [findBalance_updateFirst_ne (f := fun r =>
          { r with
              available_balance :=
                (UserBalance.new e.address e.tick).available_balance - e.amt,
              transferable_balance :=
                (UserBalance.new e.address e.tick).transferable_balance + e.amt })
          (fun r => ⟨rfl, rfl⟩) (s ++ [UserBalance.new e.address e.tick]) hk']
        cases hsa : findBalance s a t with
        | some d2 => rw [findBalance_append_some _ hsa]
        | none =>
          rw [findBalance_append_none _ hsa]
          simp [findBalance, UserBalance.new, hk'']

/-- The guard used by the rebuild-vs-incremental comparison: scanning the log
in order, every Send entry's (address, ticker) pair has already been touched
by an earlier entry. -/
def firstSendGuardAux (touched : List (String × String)) :
    List UserBalanceEntry → Bool
  | [] => true
  | e :: rest =>
    (decide ((e.address, e.tick) ∈ touched) ||
      decide (e.entry_type ≠ UserBalanceEntryType.Send)) &&
    firstSendGuardAux ((e.address, e.tick) :: touched) rest

/-- A log in which no (address, ticker) pair's first event is a Send. -/
def firstSendGuard (l : List UserBalanceEntry) : Prop :=
  firstSendGuardAux [] l = true

instance (l : List UserBalanceEntry) : Decidable (firstSendGuard l) :=
  inferInstanceAs (Decidable (firstSendGuardAux [] l = true))

theorem applyEvents_eq_rebuild_aux (l : List UserBalanceEntry) :
    ∀ (s : BalStore) (m : RebuildMap) (touched : List (String × String)),
      (∀ a t, (findBalance s a t).map balTriple = rbFind m (a, t)) →
      (∀ k ∈ touched, rbFind m k ≠ none) →
      firstSendGuardAux touched l = true →
      ∀ a t, (findBalance (applyEvents s l) a t).map balTriple =
        rbFind (l.foldl rbUpdate m) (a, t) := by
  induction l with
  | nil => intro s m touched hsm htm hg a t; exact hsm a t
  | cons e rest ih =>
    intro s m touched hsm htm hg a t
    rw [firstSendGuardAux, Bool.and_eq_true] at hg
    obtain ⟨hg1, hg2⟩ := hg
    have hns : e.entry_type = UserBalanceEntryType.Send →
        rbFind m (e.address, e.tick) ≠ none := by
      intro he
      rcases Bool.or_eq_true _ _ |>.mp hg1 with h' | h'
      · exact htm _ (of_decide_eq_true h')
      · exact absurd he (of_decide_eq_true h')
    have hstep := applyEvent_step_corr s m e hsm hns
    have htm' : ∀ k ∈ ((e.address, e.tick) :: touched),
        rbFind (rbUpdate m e) k ≠ none := by
      intro k hkmem
      rw [rbFind_rbUpdate]
      by_cases hk : k = (e.address, e.tick)
      · rw [if_pos hk]; simp
      · rw [if_neg hk]
        rcases List.mem_cons.mp hkmem with h' | h'
        · exact absurd h' hk
        · exact htm k h'
    exact ih (applyEvent s e) (rbUpdate m e) ((e.address, e.tick) :: touched)
      hstep htm' hg2 a t

/-- C7 counterexample: on the one-entry log [Send "a" "t" 2], running
`rebuild_user_balances` twice leaves the collection with two copies of the
computed document (the source inserts without clearing), so the two runs do
not yield identical collections; moreover incremental application of the same
log produces an empty store while rebuild produces a nonempty one. -/
theorem rebuild_not_idempotent_cex :
    rebuild_user_balances (rebuild_user_balances [] [entrySend]) [entrySend] ≠
      rebuild_user_balances [] [entrySend] ∧
    applyEvents [] [entrySend] = [] ∧
    rebuild_user_balances [] [entrySend] ≠ [] := by
  refine ⟨?_, rfl, ?_⟩
  · intro h
    have hl := congrArg List.length h
    simp [rebuild_user_balances, computeUserBalances, rbUpdate, rbFind,
      entrySend] at hl
  · intro h
    have hl := congrArg List.length h
    simp [rebuild_user_balances, computeUserBalances, rbUpdate, rbFind,
      entrySend] at hl

/-- C7 (amended): rebuilding is deterministic in the event log, but the source
appends the computed documents to the `brc20_user_balances` collection without
clearing it, so the second of two successive runs leaves two copies of every
document rather than an identical collection; and the computed balance map
agrees with incremental application of the same events in order provided no
(address, ticker) pair's first event in the log is a Send (a Send-first pair
is dropped by the incremental path but materialized by the rebuild). -/
theorem rebuild_twice_and_incremental (l : List UserBalanceEntry)
    (hg : firstSendGuard l) :
    rebuild_user_balances (rebuild_user_balances [] l) l =
      (computeUserBalances l).map toUserBalanceDoc ++
        (computeUserBalances l).map toUserBalanceDoc ∧
    ∀ a t, (findBalance (applyEvents [] l) a t).map balTriple =
      rbFind (computeUserBalances l) (a, t) := by
  refine ⟨rfl, ?_⟩
  intro a t
  exact applyEvents_eq_rebuild_aux l [] [] []
    (fun a t => rfl) (fun k hk => absurd hk (List.not_mem_nil k)) hg a t

theorem rebuild_twice_and_incremental_witness :
    firstSendGuard [entryRecv, entrySend] ∧
    (findBalance (applyEvents [] [entryRecv, entrySend]) "a" "t").map balTriple =
      rbFind (computeUserBalances [entryRecv, entrySend]) ("a", "t") :=
  ⟨by decide, (rebuild_twice_and_incremental _ (by decide)).2 "a" "t"⟩

end Brc20
